import Mathlib

/-!
Verification of the ear-trainer core (`eartrainer/theory.py`, `eartrainer/models.py`,
`eartrainer/trainer.py`) against its natural-language specification.

Embedding conventions:
* Python `dict`s become insertion-ordered association lists (`List (String × _)`);
  `dictGet` is dict lookup, `dictInsert` replaces the first binding in place or
  appends a fresh binding at the end, exactly like Python dict assignment.
* `collections.deque(maxlen = n)` becomes a list together with `dequePush`, which
  appends on the right and evicts from the left once the capacity is exceeded.
* Python machine floats are idealised as exact rationals (`ℚ`).  The one
  transcendental operation, `np.exp`, is an explicit function parameter
  `E : ℚ → ℚ`; theorems assume only what the claims need of it (positivity),
  so they cover the floating-point exponential.
* `numpy` values are modelled by `NpVal` (0-d scalar or 1-d array), because the
  scalar/array distinction is observable: `np.exp(0.0)` is a 0-d scalar whose
  `.tolist()` is a plain float, on which `len` raises `TypeError`.
* Randomness (`random.randint`, `random.random`, `random.sample`,
  `random.shuffle`, `np.random.choice`) is an oracle structure `Rng` indexed by
  a call counter; theorems quantify over all oracles satisfying `Rng.Valid`,
  the defining postconditions of those primitives.
* Fallible operations (`dict[key]` raising `KeyError`, the `len`-of-float
  `TypeError`) return `Except String _`.
-/

/-! ## Dict and deque primitives -/

/-- Python dict lookup on an insertion-ordered association list. -/
def dictGet {β : Type} (k : String) : List (String × β) → Option β
  | [] => none
  | (k1, v) :: rest => if k1 = k then some v else dictGet k rest

/-- Python dict assignment `d[k] = v`: replace the binding in place if the key
exists, otherwise append a new binding at the end (insertion order). -/
def dictInsert {β : Type} (k : String) (v : β) : List (String × β) → List (String × β)
  | [] => [(k, v)]
  | (k1, v1) :: rest => if k1 = k then (k, v) :: rest else (k1, v1) :: dictInsert k v rest

/-- Append on the right of a `deque(maxlen = cap)`, evicting from the left on
overflow. -/
def dequePush {α : Type} (cap : ℕ) (l : List α) (x : α) : List α :=
  (l ++ [x]).drop ((l ++ [x]).length - cap)

/-- Assigning a freshly built batch into a `deque(maxlen = cap)` keeps only the
last `cap` elements. -/
def dequeOfList {α : Type} (cap : ℕ) (l : List α) : List α :=
  l.drop (l.length - cap)

/-! ## `theory.py` -/

/-- Playback mode (`Literal["ascending", "descending", "harmonic"]` in
`models.py`). -/
inductive Mode where
  | ascending
  | descending
  | harmonic
deriving DecidableEq

/-- Semitone table `SEMITONES` from `theory.py`. -/
def SEMITONES : List (String × ℤ) :=
  [("m2", 1), ("M2", 2), ("m3", 3), ("M3", 4), ("P4", 5), ("TT", 6),
   ("P5", 7), ("m6", 8), ("M6", 9), ("m7", 10), ("M7", 11), ("P8", 12)]

/-- Note-name table `NOTE_TO_MIDI` from `theory.py`. -/
def NOTE_TO_MIDI : List (String × ℤ) :=
  [("C3", 48), ("D3", 50), ("E3", 52), ("F3", 53), ("G3", 55), ("A3", 57),
   ("B3", 59), ("C4", 60), ("D4", 62), ("E4", 64), ("F4", 65), ("G4", 67), ("A4", 69)]

/-- Lookup `SEMITONES[name]`; raises `KeyError` on unknown names. -/
def semitoneDistance (name : String) : Except String ℤ :=
  match dictGet name SEMITONES with
  | none => .error "KeyError"
  | some d => .ok d

/-- Lookup `NOTE_TO_MIDI[note]` (`note_to_midi` in `theory.py`); raises
`KeyError` on unknown names. -/
def note_to_midi (note : String) : Except String ℤ :=
  match dictGet note NOTE_TO_MIDI with
  | none => .error "KeyError"
  | some m => .ok m

/-- Function `settings_range_to_midi` from `theory.py`. -/
def settings_range_to_midi (range_notes : String × String) : Except String (ℤ × ℤ) :=
  match note_to_midi range_notes.1, note_to_midi range_notes.2 with
  | .ok lo, .ok hi => .ok (lo, hi)
  | .error e, _ => .error e
  | _, .error e => .error e

/-- Validity of a settings note range for root picking: both note names are in
`NOTE_TO_MIDI` and the resulting MIDI bounds are ordered (`low ≤ high`).  A
reversed range is representable in `Settings`, but then every
`pick_root_in_bounds` fallback hits `random.randint` on an empty range and
raises `ValueError`. -/
def rangeOk (range_notes : String × String) : Bool :=
  match settings_range_to_midi range_notes with
  | .error _ => false
  | .ok mm => decide (mm.1 ≤ mm.2)

/-- Function `interval_to_pair` from `theory.py`. -/
def interval_to_pair (root_midi : ℤ) (name : String) (direction : Mode) :
    Except String (ℤ × ℤ) :=
  match semitoneDistance name with
  | .error e => .error e
  | .ok d0 =>
    let d := if direction = Mode.descending then -d0 else d0
    .ok (root_midi, root_midi + d)

/-- Python `random.randint(lo, hi)`: raises `ValueError` when `lo > hi` (the
underlying `randrange(lo, hi + 1)` has an empty range); otherwise the drawn
value is supplied by the oracle `rint`. -/
def randint (rint : ℤ → ℤ → ℤ) (lo hi : ℤ) : Except String ℤ :=
  if hi < lo then .error "ValueError: empty range for randrange()"
  else .ok (rint lo hi)

/-- Function `pick_root` from `theory.py`: `random.randint(mmin, mmax)`. -/
def pick_root (rint : ℤ → ℤ → ℤ) (mmin mmax : ℤ) : Except String ℤ :=
  randint rint mmin mmax

/-- Function `pick_root_in_bounds` from `theory.py`.  The oracle `rint` stands
for the single `random.randint` call made on either path; a `randint` on an
empty range (reachable via the fallback when `min_midi > max_midi`) raises
`ValueError`, which propagates. -/
def pick_root_in_bounds (rint : ℤ → ℤ → ℤ) (min_midi max_midi : ℤ)
    (interval_name : String) (mode : Mode) : Except String ℤ :=
  match semitoneDistance interval_name with
  | .error e => .error e
  | .ok d =>
    let low := if mode = Mode.descending then min_midi + d else min_midi
    let high := if mode = Mode.descending then max_midi else max_midi - d
    let low2 := max low min_midi
    let high2 := min high max_midi
    if high2 < low2 then pick_root rint min_midi max_midi
    else randint rint low2 high2

/-! ## `models.py` -/

/-- Pydantic model `IntervalStats` (plain unconstrained ints). -/
structure IntervalStats where
  seen : ℤ
  correct : ℤ
deriving DecidableEq

/-- Pydantic model `Stats`. -/
structure Stats where
  by_interval : List (String × IntervalStats)
  confusion : List (String × List (String × ℤ))
deriving DecidableEq

/-- Pydantic model `Question`. -/
structure Question where
  interval : String
  options : List String
  answer : String
  root_midi : ℤ
  pair_midi : ℤ × ℤ
  mode : Mode
deriving DecidableEq

/-- Pydantic model `AnswerRecord`. -/
structure AnswerRecord where
  interval : String
  chosen : String
  correct : Bool
deriving DecidableEq

/-- Pydantic model `Settings` (the fields the core logic reads). -/
structure Settings where
  intervals : List String
  mode : Mode
  range : String × String
  waveform : String
  session_len : ℤ
  volume : ℚ
deriving DecidableEq

/-! ## A minimal model of the `numpy` values used by `AdaptiveState.weights`

`np.exp(list - scalar)` broadcasts to a 1-d array, while `np.exp(0.0)` is a 0-d
scalar.  `.tolist()` turns an array into a Python list but a 0-d scalar into a
plain Python float, and `len` of a float raises `TypeError`. -/

/-- A numpy value: 0-d scalar or 1-d array. -/
inductive NpVal where
  | scalar (x : ℚ)
  | arr (xs : List ℚ)
deriving DecidableEq

/-- Elementwise `np.exp`, with the exponential function supplied as `E`. -/
def npExpWith (E : ℚ → ℚ) : NpVal → NpVal
  | .scalar x => .scalar (E x)
  | .arr xs => .arr (xs.map E)

/-- Total `np.sum`. -/
def NpVal.npSum : NpVal → ℚ
  | .scalar x => x
  | .arr xs => xs.sum

/-- The result of `.tolist()`: a Python float for a 0-d scalar, a list for an
array. -/
inductive PyW where
  | float (x : ℚ)
  | list (xs : List ℚ)
deriving DecidableEq

/-- Division by a scalar followed by `.tolist()`. -/
def NpVal.divToList : NpVal → ℚ → PyW
  | .scalar x, s => .float (x / s)
  | .arr xs, s => .list (xs.map (fun x => x / s))

/-! ## `trainer.py`: `AdaptiveState` -/

/-- Runtime state of `AdaptiveState.__init__`: `window`, the per-interval
history dict of bounded deques, and the 3-slot `recent_misses` deque. -/
structure AdaptiveState where
  window : ℕ
  history : List (String × List Bool)
  recent_misses : List String
deriving DecidableEq

/-- Constructor `AdaptiveState(intervals, window)`: one empty history deque per
enabled interval (dict comprehension), empty recent-misses deque. -/
def AdaptiveState.init (intervals : List String) (window : ℕ) : AdaptiveState :=
  { window := window
    history := intervals.foldl (fun d n => dictInsert n ([] : List Bool) d) []
    recent_misses := [] }

/-- Method `AdaptiveState.accuracy`: fraction of `True` entries, `0.0` for a
missing or empty history. -/
def AdaptiveState.accuracy (st : AdaptiveState) (name : String) : ℚ :=
  match dictGet name st.history with
  | none => 0
  | some h => if h.length = 0 then 0 else (h.count true : ℚ) / (h.length : ℚ)

/-- Method `AdaptiveState.update`: `setdefault` + bounded append; a miss is also
pushed onto the 3-slot recent-misses deque. -/
def AdaptiveState.update (st : AdaptiveState) (interval : String) (correct : Bool) :
    AdaptiveState :=
  { st with
    history :=
      dictInsert interval
        (dequePush st.window ((dictGet interval st.history).getD []) correct) st.history
    recent_misses :=
      if correct then st.recent_misses else dequePush 3 st.recent_misses interval }

/-- Python `round` on floats: round half to even, as used by
`int(round(...))` in `seed_from_stats`. -/
def pyRound (q : ℚ) : ℤ :=
  if q - ⌊q⌋ < 1/2 then ⌊q⌋
  else if 1/2 < q - ⌊q⌋ then ⌊q⌋ + 1
  else if Even ⌊q⌋ then ⌊q⌋ else ⌊q⌋ + 1

/-- The synthesized history length `n = min(window, max(1, seen))` of
`seed_from_stats`. -/
def seedLen (window : ℕ) (ist : IntervalStats) : ℤ :=
  min (window : ℤ) (max 1 ist.seen)

/-- The synthesized `True` count `k = int(round((correct / seen) * n)) if seen
else 0` of `seed_from_stats`. -/
def seedK (ist : IntervalStats) (n : ℤ) : ℤ :=
  if ist.seen ≠ 0 then pyRound ((ist.correct : ℚ) / (ist.seen : ℚ) * (n : ℚ)) else 0

/-- The batch `[True] * k + [False] * (n - k)` written into the interval's
deque by `seed_from_stats` (Python list repetition is empty for a negative
count; the deque keeps the last `window` entries). -/
def seedBatch (window : ℕ) (ist : IntervalStats) : List Bool :=
  dequeOfList window
    (List.replicate (seedK ist (seedLen window ist)).toNat true ++
     List.replicate ((seedLen window ist) - seedK ist (seedLen window ist)).toNat false)

/-- One iteration of the `seed_from_stats` loop body for the pair
`(name, st_i)`: ensure the key exists, then overwrite its deque with the
synthesized batch (clear + extend). -/
def seedStep (st : AdaptiveState) (p : String × IntervalStats) : AdaptiveState :=
  { st with history := dictInsert p.1 (seedBatch st.window p.2) st.history }

/-- Method `AdaptiveState.seed_from_stats`. -/
def AdaptiveState.seed_from_stats (st : AdaptiveState) (stats : Stats) : AdaptiveState :=
  stats.by_interval.foldl seedStep st

/-- Maximum of a list of scores (`np.max`), only ever applied to a non-empty
list. -/
def listMax : List ℚ → ℚ
  | [] => 0
  | x :: xs => xs.foldl max x

/-- The score list built by the loop at the top of `AdaptiveState.weights`:
`max(0.0, (1 - accuracy) + 0.15 recent-miss boost)` per interval. -/
def weightScores (st : AdaptiveState) (intervals : List String) : List ℚ :=
  intervals.map (fun name =>
    max 0 ((1 - st.accuracy name) + if name ∈ st.recent_misses then 3/20 else 0))

/-- The value `exps = np.exp(scores - np.max(scores) if scores else 0.0)`:
for a non-empty score list the conditional chooses the broadcast array, for an
empty one the plain float `0.0`, so `exps` is a 0-d scalar. -/
def weightExps (E : ℚ → ℚ) (scores : List ℚ) : NpVal :=
  npExpWith E
    (if scores = [] then .scalar 0 else .arr (scores.map (fun s => s - listMax scores)))

/-- The value `w = (exps / np.sum(exps)).tolist() if np.sum(exps) > 0 else
[1.0 / max(1, len(intervals))] * len(intervals)`. -/
def weightW (E : ℚ → ℚ) (scores : List ℚ) (nIntervals : ℕ) : PyW :=
  if 0 < (weightExps E scores).npSum then
    (weightExps E scores).divToList (weightExps E scores).npSum
  else .list (List.replicate nIntervals (1 / max 1 (nIntervals : ℚ)))

/-- Clamp every probability up to the floor (`np.maximum(w, min_floor)`). -/
def clampFloor (xs : List ℚ) (min_floor : ℚ) : List ℚ :=
  xs.map (fun x => max x min_floor)

/-- Renormalize by the sum (`(w / np.sum(w)).tolist()`). -/
def renorm (ys : List ℚ) : List ℚ :=
  ys.map (fun y => y / ys.sum)

/-- Method `AdaptiveState.weights` (`computeWeights`).  Evaluating `len(w)`
requires `w` to be a list; when `w` is the float produced by the
empty-`intervals` path, `len` raises `TypeError`. -/
def AdaptiveState.weights (st : AdaptiveState) (E : ℚ → ℚ) (intervals : List String)
    (min_floor : ℚ) : Except String (List ℚ) :=
  match weightW E (weightScores st intervals) intervals.length with
  | .float _ => .error "TypeError: object of type float has no len()"
  | .list xs =>
    if 0 < xs.length then .ok (renorm (clampFloor xs min_floor))
    else .ok xs

/-! ## Randomness oracle

Each random primitive is an oracle function indexed by a per-`make_question`
call counter, so successive calls may return different values.  `Rng.Valid`
states exactly the postconditions of the Python primitives. -/

/-- Oracle for the random primitives used by the question generator. -/
structure Rng where
  rint : ℕ → ℤ → ℤ → ℤ
  flt : ℕ → ℚ
  choice : ℕ → ℕ → List ℚ → ℕ
  sample : ℕ → List String → ℕ → List String
  shuffle : ℕ → List String → List String

/-- Postconditions of the Python random primitives: `randint(lo, hi)` lands in
`[lo, hi]`; `np.random.choice(n, p)` returns an index below `n`; `sample(l, k)`
with `k ≤ len(l)` returns `k` elements drawn without replacement (a
sub-permutation); `shuffle` permutes. -/
def Rng.Valid (g : Rng) : Prop :=
  (∀ c lo hi, lo ≤ hi → lo ≤ g.rint c lo hi ∧ g.rint c lo hi ≤ hi) ∧
  (∀ c n w, 0 < n → g.choice c n w < n) ∧
  (∀ c l k, k ≤ l.length → (g.sample c l k).length = k ∧ (g.sample c l k).Subperm l) ∧
  (∀ c l, (g.shuffle c l).Perm l)

/-! ## `trainer.py`: question generation and scoring -/

/-- Function `choose_interval`: `intervals[np.random.choice(len(intervals),
p=weights)]`.  The weights shape the distribution only; a valid oracle returns
an in-range index.  Returns the drawn name and the advanced counter. -/
def choose_interval (g : Rng) (c : ℕ) (intervals : List String) (w : List ℚ) :
    String × ℕ :=
  (intervals.getD (g.choice c intervals.length w) "", c + 1)

/-- Sort key `abs(SEMITONES[n] - target)` used by `distractors`; the
surrounding guard ensures every name is in the table, so the `getD` default is
never reached. -/
def semitoneKey (target : ℤ) (n : String) : ℤ :=
  |((dictGet n SEMITONES).getD 0) - target|

/-- Function `distractors` from `trainer.py`.  A name missing from `SEMITONES`
raises `KeyError` (in Python inside the sort key or the `target` lookup); the
guard reifies that before sorting.  Consumes one `random.random()` draw and one
`random.sample` draw on the non-trivial path. -/
def distractors (g : Rng) (c : ℕ) (correct : String) (pool : List String) (k : ℕ) :
    Except String (List String × ℕ) :=
  let names := pool.filter (fun n => n ≠ correct)
  if names.isEmpty then .ok ([], c)
  else
    match dictGet correct SEMITONES with
    | none => .error "KeyError"
    | some target =>
      if names.all (fun n => (dictGet n SEMITONES).isSome) then
        let sorted := names.insertionSort (fun a b => semitoneKey target a ≤ semitoneKey target b)
        let candidates := sorted.take (max 1 (min (k + 2) names.length))
        let candidates2 :=
          if 0 < names.length ∧ g.flt c < 1/5 then
            if sorted.getLastD "" ∈ candidates then candidates
            else candidates.dropLast ++ [sorted.getLastD ""]
          else candidates
        .ok (g.sample (c + 1) candidates2 (min k candidates2.length), c + 2)
      else .error "KeyError"

/-- The anti-repeat resampling loop of `make_question` (`for _ in range(25)`):
while the candidate `(interval, root, mode)` tuple equals the previous
question's, resample the root with probability 0.7, otherwise resample the
interval.  Fuel mirrors the literal 25-iteration bound. -/
def antiRepeat (g : Rng) (intervals : List String) (w : List ℚ)
    (min_midi max_midi : ℤ) (mode : Mode) (lq : Option Question) :
    ℕ → String → ℤ → ℕ → Except String (String × ℤ × ℕ)
  | 0, name, root, c => .ok (name, root, c)
  | fuel + 1, name, root, c =>
    match lq with
    | none => .ok (name, root, c)
    | some q =>
      if name = q.interval ∧ root = q.root_midi ∧ mode = q.mode then
        if g.flt c < 7/10 then
          match pick_root_in_bounds (g.rint (c + 1)) min_midi max_midi name mode with
          | .error e => .error e
          | .ok r =>
            antiRepeat g intervals w min_midi max_midi mode lq fuel name r (c + 2)
        else
          antiRepeat g intervals w min_midi max_midi mode lq fuel
            (choose_interval g (c + 1) intervals w).1 root
            (choose_interval g (c + 1) intervals w).2
      else .ok (name, root, c)

/-- The last-resort root nudge after the anti-repeat loop: `+1` if within
range, else `-1` if within range, else keep the duplicate. -/
def nudgeRoot (lq : Option Question) (name : String) (mode : Mode)
    (min_midi max_midi root : ℤ) : ℤ :=
  match lq with
  | none => root
  | some q =>
    if name = q.interval ∧ root = q.root_midi ∧ mode = q.mode then
      if root + 1 ≤ max_midi then root + 1
      else if min_midi ≤ root - 1 then root - 1
      else root
    else root

/-- Function `make_question` from `trainer.py`. -/
def make_question (E : ℚ → ℚ) (g : Rng) (settings : Settings) (state : AdaptiveState)
    (last_q : Option Question) : Except String Question :=
  match state.weights E settings.intervals (1/20) with
  | .error e => .error e
  | .ok w =>
    match settings_range_to_midi settings.range with
    | .error e => .error e
    | .ok mm =>
      let p0 := choose_interval g 0 settings.intervals w
      match pick_root_in_bounds (g.rint p0.2) mm.1 mm.2 p0.1 settings.mode with
      | .error e => .error e
      | .ok root0 =>
        match antiRepeat g settings.intervals w mm.1 mm.2 settings.mode last_q
            25 p0.1 root0 (p0.2 + 1) with
        | .error e => .error e
        | .ok nrc =>
          let name := nrc.1
          let root := nudgeRoot last_q name settings.mode mm.1 mm.2 nrc.2.1
          match interval_to_pair root name settings.mode with
          | .error e => .error e
          | .ok pr =>
            match distractors g nrc.2.2 name settings.intervals 3 with
            | .error e => .error e
            | .ok dc =>
              .ok { interval := name
                    options := g.shuffle dc.2 (name :: dc.1)
                    answer := name
                    root_midi := root
                    pair_midi := pr
                    mode := settings.mode }

/-- Function `score_answer` from `trainer.py`.  Returns the `AnswerRecord`
together with the updated `Stats` and `AdaptiveState` (the two structures the
Python function mutates in place). -/
def score_answer (q : Question) (chosen : String) (stats : Stats)
    (state : AdaptiveState) : AnswerRecord × Stats × AdaptiveState :=
  let is_correct := chosen = q.answer
  let bi0 := if (dictGet q.interval stats.by_interval).isNone then
      dictInsert q.interval ⟨0, 0⟩ stats.by_interval
    else stats.by_interval
  let cur := (dictGet q.interval bi0).getD ⟨0, 0⟩
  let bi1 := dictInsert q.interval
      { seen := cur.seen + 1
        correct := cur.correct + (if is_correct then 1 else 0) } bi0
  let conf1 := if is_correct then stats.confusion else
    let inner := (dictGet q.interval stats.confusion).getD []
    dictInsert q.interval
      (dictInsert chosen (((dictGet chosen inner).getD 0) + 1) inner) stats.confusion
  (⟨q.interval, chosen, decide is_correct⟩,
   ⟨bi1, conf1⟩,
   state.update q.interval (decide is_correct))

/-! ## Concrete objects used by witnesses and counterexamples -/

/-- Default `Question` used only as the `Option.getD` fallback in statements. -/
def qDefault : Question := ⟨"", [], "", 0, (0, 0), Mode.ascending⟩

/-- A concrete valid oracle: `randint` returns the lower bound, `random`
returns 0, `choice` index 0, `sample` takes an initial segment, `shuffle` is the
identity permutation. -/
def gex : Rng :=
  { rint := fun _ lo _ => lo
    flt := fun _ => 0
    choice := fun _ _ _ => 0
    sample := fun _ l k => l.take k
    shuffle := fun _ l => l }

/-- Settings with a single enabled interval, used to refute the
four-options claim. -/
def settingsC3 : Settings := ⟨["m2"], Mode.ascending, ("C3", "A4"), "piano", 20, 9/10⟩

/-- Settings with a single enabled interval and a single-note range, the
degenerate configuration of the termination claim. -/
def settingsC9 : Settings := ⟨["m2"], Mode.ascending, ("C3", "C3"), "piano", 20, 9/10⟩

/-- Settings enabling all twelve canonical intervals. -/
def settingsAll : Settings :=
  ⟨["m2", "M2", "m3", "M3", "P4", "TT", "P5", "m6", "M6", "m7", "M7", "P8"],
   Mode.ascending, ("C3", "A4"), "piano", 20, 9/10⟩

/-- The concrete exponential for the C2 counterexample (any positive function
works; only its values at the two reached points matter). -/
def Ecex : ℚ → ℚ := fun x => if x = -1 then 1/3 else 1

/-- Concrete adaptive state for the C2 counterexample: interval `m2` has a
perfect one-entry history, `M2` an empty one. -/
def stCex : AdaptiveState := ⟨50, [("m2", [true]), ("M2", [])], []⟩

/-- Decidable form of the `IntervalStats` data-model invariant
`0 ≤ correct ≤ seen` over every entry of a `Stats` value. -/
def statsInRange (stats : Stats) : Bool :=
  stats.by_interval.all (fun p => decide (0 ≤ p.2.correct ∧ p.2.correct ≤ p.2.seen))

/-! ## Helper lemmas: dict, deque, sums -/

theorem dictGet_dictInsert_self {β : Type} (k : String) (v : β) (l : List (String × β)) :
    dictGet k (dictInsert k v l) = some v := by
  induction l with
  | nil => simp [dictGet, dictInsert]
  | cons p rest ih =>
    obtain ⟨k1, v1⟩ := p
    by_cases h : k1 = k
    · simp [dictGet, dictInsert, h]
    · simp [dictGet, dictInsert, h, ih]

theorem dictGet_dictInsert_ne {β : Type} (k k2 : String) (v : β) (l : List (String × β))
    (h : k2 ≠ k) : dictGet k2 (dictInsert k v l) = dictGet k2 l := by
  have hk : k ≠ k2 := Ne.symm h
  induction l with
  | nil => simp [dictGet, dictInsert, hk]
  | cons p rest ih =>
    obtain ⟨k1, v1⟩ := p
    by_cases h1 : k1 = k
    · subst h1
      simp [dictGet, dictInsert, hk]
    · by_cases h2 : k1 = k2 <;> simp [dictGet, dictInsert, h, h1, h2, ih]

theorem mem_dictInsert {β : Type} {p : String × β} {k : String} {v : β} :
    ∀ {l : List (String × β)}, p ∈ dictInsert k v l → p = (k, v) ∨ p ∈ l := by
  intro l
  induction l with
  | nil => intro hp; exact Or.inl (by simpa [dictInsert] using hp)
  | cons q rest ih =>
    intro hp
    obtain ⟨k1, v1⟩ := q
    by_cases h : k1 = k
    · simp only [dictInsert, if_pos h, List.mem_cons] at hp
      rcases hp with h1 | h1
      · exact Or.inl h1
      · exact Or.inr (List.mem_cons_of_mem _ h1)
    · simp only [dictInsert, if_neg h, List.mem_cons] at hp
      rcases hp with h1 | h1
      · exact Or.inr (h1 ▸ List.mem_cons_self _ _)
      · rcases ih h1 with h2 | h2
        · exact Or.inl h2
        · exact Or.inr (List.mem_cons_of_mem _ h2)

theorem dictGet_mem {β : Type} {k : String} {v : β} :
    ∀ {l : List (String × β)}, dictGet k l = some v → (k, v) ∈ l := by
  intro l
  induction l with
  | nil => intro h; simp [dictGet] at h
  | cons p rest ih =>
    intro h
    obtain ⟨k1, v1⟩ := p
    by_cases h1 : k1 = k
    · subst h1
      have h2 : v1 = v := by simpa [dictGet] using h
      subst h2
      exact List.mem_cons_self _ _
    · simp only [dictGet, if_neg h1] at h
      exact List.mem_cons_of_mem _ (ih h)

theorem sum_map_div (l : List ℚ) (c : ℚ) :
    (l.map (fun y => y / c)).sum = l.sum / c := by
  induction l with
  | nil => simp
  | cons a t ih => simp [ih, add_div]

/-! ## Claim C1: `computeWeights` on an empty intervals list

With `scores == []`, the conditional feeds the Python float `0.0` to `np.exp`,
producing a 0-d scalar; its positive sum selects the division branch, whose
`.tolist()` is a plain float, and `len(w)` raises `TypeError`.  The spec
demands "empty in, empty out; must never crash", so the code contradicts it. -/

/-- C1: contrary to the claim, `AdaptiveState.weights` on an empty intervals
list does not return an empty result: for every state and floor it raises
`TypeError` (`len()` of the float produced by `np.exp(0.0).tolist()`),
whenever the modelled exponential is positive at 0 as `np.exp` is. -/
theorem weights_empty_len_typeerror (E : ℚ → ℚ) (st : AdaptiveState) (f : ℚ)
    (hE : 0 < E 0) :
    st.weights E [] f = .error "TypeError: object of type float has no len()" := by
  unfold AdaptiveState.weights weightW weightExps weightScores
  simp [npExpWith, NpVal.npSum, NpVal.divToList, hE]

/-- Witness for C1 at a concrete state and exponential. -/
theorem weights_empty_len_typeerror_witness :
    (AdaptiveState.init ["m2"] 50).weights (fun _ => 1) [] (1/20) =
      .error "TypeError: object of type float has no len()" :=
  weights_empty_len_typeerror (fun _ => 1) _ _ (by norm_num)

/-! ## Claim C2: shape of `computeWeights` on non-empty input -/

/-- Existence and arithmetic properties of `weights` on non-empty input, for
any everywhere-positive exponential. -/
theorem weights_spec (E : ℚ → ℚ) (st : AdaptiveState) (intervals : List String)
    (f : ℚ) (hE : ∀ x, 0 < E x) (hne : intervals ≠ []) :
    ∃ l, st.weights E intervals f = .ok l ∧ l.length = intervals.length ∧
      l.sum = 1 ∧ ∀ x ∈ l, 0 < x := by
  set scores := weightScores st intervals with hsc
  have hscne : scores ≠ [] := by
    simp only [hsc, weightScores, ne_eq, List.map_eq_nil_iff]
    exact hne
  set es := (scores.map (fun s => s - listMax scores)).map E with hes
  have hespos : ∀ x ∈ es, 0 < x := by
    intro x hx
    simp only [hes, List.mem_map] at hx
    obtain ⟨y, _, rfl⟩ := hx
    exact hE y
  have hesne : es ≠ [] := by
    simp only [hes, ne_eq, List.map_eq_nil_iff]
    exact hscne
  have hsum : 0 < es.sum := List.sum_pos es hespos hesne
  have hW : weightW E scores intervals.length = .list (es.map (fun x => x / es.sum)) := by
    unfold weightW weightExps
    rw [if_neg hscne]
    simp only [npExpWith, NpVal.npSum, ← hes, if_pos hsum, NpVal.divToList]
  set xs := es.map (fun x => x / es.sum) with hxs
  have hxspos : ∀ x ∈ xs, 0 < x := by
    intro x hx
    simp only [hxs, List.mem_map] at hx
    obtain ⟨y, hy, rfl⟩ := hx
    exact div_pos (hespos y hy) hsum
  have hxlen : xs.length = intervals.length := by
    simp [hxs, hes, hsc, weightScores]
  have hxposlen : 0 < xs.length := by
    rw [hxlen]
    exact List.length_pos.mpr hne
  set ys := clampFloor xs f with hys
  have hyspos : ∀ y ∈ ys, 0 < y := by
    intro y hy
    simp only [hys, clampFloor, List.mem_map] at hy
    obtain ⟨x, hx, rfl⟩ := hy
    exact lt_of_lt_of_le (hxspos x hx) (le_max_left x f)
  have hysne : ys ≠ [] := by
    simp only [hys, clampFloor, ne_eq, List.map_eq_nil_iff]
    intro h
    exact hscne (by simpa [hxs, hes, h] using congrArg List.length h)
  have hyssum : 0 < ys.sum := List.sum_pos ys hyspos hysne
  refine ⟨renorm ys, ?_, ?_, ?_, ?_⟩
  · unfold AdaptiveState.weights
    rw [← hsc, hW]
    simp [hxposlen, hys]
  · simp [renorm, hys, clampFloor, hxlen]
  · simp only [renorm, sum_map_div]
    exact div_self (ne_of_gt hyssum)
  · intro x hx
    simp only [renorm, List.mem_map] at hx
    obtain ⟨y, hy, rfl⟩ := hx
    exact div_pos (hyspos y hy) hyssum

/-- C2 (amended): for every everywhere-positive exponential and non-empty
intervals list, `computeWeights` succeeds with a list of the same length and
order whose entries sum exactly to 1 and are all strictly positive.  The
original claim's "every entry at least `minFloor`" is refuted below: the final
renormalization divides the clamped entries by a sum that exceeds 1 whenever
any clamping occurred. -/
theorem weights_nonempty_sum_one_pos (E : ℚ → ℚ) (st : AdaptiveState)
    (intervals : List String) (f : ℚ) (hE : ∀ x, 0 < E x) (hne : intervals ≠ []) :
    (st.weights E intervals f).toOption.isSome = true ∧
    ((st.weights E intervals f).toOption.getD []).length = intervals.length ∧
    ((st.weights E intervals f).toOption.getD []).sum = 1 ∧
    ((st.weights E intervals f).toOption.getD []).all (fun x => decide (0 < x)) = true := by
  obtain ⟨l, hok, hlen, hsum, hpos⟩ := weights_spec E st intervals f hE hne
  rw [hok]
  simp only [Except.toOption, Option.isSome_some, Option.getD_some, List.all_eq_true,
    decide_eq_true_eq, true_and]
  exact ⟨hlen, hsum, fun x hx => hpos x hx⟩

/-- Witness for C2 at a concrete state, floor, and exponential. -/
theorem weights_nonempty_sum_one_pos_witness :
    ((AdaptiveState.init ["m2", "P5"] 50).weights (fun _ => 1) ["m2", "P5"]
        (1/20)).toOption.isSome = true ∧
    (((AdaptiveState.init ["m2", "P5"] 50).weights (fun _ => 1) ["m2", "P5"]
        (1/20)).toOption.getD []).length = (["m2", "P5"] : List String).length ∧
    (((AdaptiveState.init ["m2", "P5"] 50).weights (fun _ => 1) ["m2", "P5"]
        (1/20)).toOption.getD []).sum = 1 ∧
    ((((AdaptiveState.init ["m2", "P5"] 50).weights (fun _ => 1) ["m2", "P5"]
        (1/20)).toOption.getD []).all (fun x => decide (0 < x))) = true :=
  weights_nonempty_sum_one_pos (fun _ => 1) (AdaptiveState.init ["m2", "P5"] 50)
    ["m2", "P5"] (1/20) (fun _ => one_pos) (by simp)

theorem Ecex_pos : ∀ x : ℚ, 0 < Ecex x := by
  intro x
  unfold Ecex
  split <;> norm_num

/-- C2 counterexample: the claim as stated is false.  With intervals
`["m2", "M2"]`, histories giving softmax weights `[1/4, 3/4]`, and
`minFloor = 1/2`, clamping yields `[1/2, 3/4]` and the final renormalization
by `5/4` yields `[2/5, 3/5]`, whose first entry is strictly below the floor. -/
theorem weights_min_floor_violated :
    ¬ (∀ (E : ℚ → ℚ) (st : AdaptiveState) (intervals : List String) (f : ℚ),
        (∀ x, 0 < E x) → intervals ≠ [] →
        ((st.weights E intervals f).toOption.getD []).length = intervals.length ∧
        ((st.weights E intervals f).toOption.getD []).sum = 1 ∧
        ((st.weights E intervals f).toOption.getD []).all
          (fun x => decide (f ≤ x)) = true) := by
  intro h
  have heval : stCex.weights Ecex ["m2", "M2"] (1/2) = Except.ok [2/5, 3/5] := by
    have hsc : weightScores stCex ["m2", "M2"] = [0, 1] := by
      simp [weightScores, AdaptiveState.accuracy, stCex, dictGet]
    have hexps : weightExps Ecex [0, 1] = NpVal.arr [1/3, 1] := by
      simp [weightExps, listMax, npExpWith, Ecex]
    have hW : weightW Ecex [0, 1] 2 = PyW.list [1/4, 3/4] := by
      rw [weightW, hexps]
      norm_num [NpVal.npSum, NpVal.divToList]
    rw [AdaptiveState.weights, hsc]
    norm_num [hW, renorm, clampFloor]
  have h2 := (h Ecex stCex ["m2", "M2"] (1/2) Ecex_pos (by simp)).2.2
  rw [heval] at h2
  norm_num [Except.toOption] at h2

/-! ## Claim C7: `seed_from_stats` -/

theorem pyRound_nonneg (q : ℚ) (h : 0 ≤ q) : 0 ≤ pyRound q := by
  have hf : 0 ≤ ⌊q⌋ := Int.floor_nonneg.mpr h
  unfold pyRound
  split_ifs <;> omega

theorem pyRound_le (q : ℚ) (n : ℤ) (h : q ≤ n) : pyRound q ≤ n := by
  have hf : ⌊q⌋ ≤ n := by
    have h2 : ⌊q⌋ ≤ ⌊(n:ℚ)⌋ := Int.floor_le_floor h
    simpa using h2
  have hstep : (1:ℚ)/2 ≤ q - ⌊q⌋ → ⌊q⌋ + 1 ≤ n := by
    intro hr
    have hq : (⌊q⌋ : ℚ) < q := by linarith
    rcases lt_or_eq_of_le hf with h1 | h1
    · omega
    · exfalso
      rw [h1] at hq
      exact lt_irrefl _ (lt_of_lt_of_le hq h)
  unfold pyRound
  split_ifs with h1 h2 h3
  · exact hf
  · exact hstep (le_of_lt h2)
  · exact hf
  · exact hstep (not_lt.mp h1)

theorem seedK_bounds (window : ℕ) (ist : IntervalStats) (hc : 0 ≤ ist.correct)
    (hs : ist.correct ≤ ist.seen) :
    0 ≤ seedK ist (seedLen window ist) ∧
    seedK ist (seedLen window ist) ≤ seedLen window ist := by
  unfold seedK
  by_cases h : ist.seen = 0
  · simp only [h, ne_eq, not_true_eq_false, if_false]
    constructor
    · exact le_refl 0
    · unfold seedLen
      omega
  · rw [if_pos h]
    have hs1 : 1 ≤ ist.seen := by omega
    have hn0 : 0 ≤ seedLen window ist := by unfold seedLen; omega
    have hsq : (0:ℚ) < (ist.seen : ℚ) := by exact_mod_cast hs1
    have hnq : (0:ℚ) ≤ ((seedLen window ist : ℤ) : ℚ) := by exact_mod_cast hn0
    have hratio0 : 0 ≤ (ist.correct : ℚ) / (ist.seen : ℚ) :=
      div_nonneg (by exact_mod_cast hc) (le_of_lt hsq)
    have hratio1 : (ist.correct : ℚ) / (ist.seen : ℚ) ≤ 1 := by
      rw [div_le_one hsq]
      exact_mod_cast hs
    constructor
    · exact pyRound_nonneg _ (mul_nonneg hratio0 hnq)
    · apply pyRound_le
      calc (ist.correct : ℚ) / (ist.seen : ℚ) * ((seedLen window ist : ℤ) : ℚ)
          ≤ 1 * ((seedLen window ist : ℤ) : ℚ) :=
            mul_le_mul_of_nonneg_right hratio1 hnq
        _ = ((seedLen window ist : ℤ) : ℚ) := one_mul _

theorem seedBatch_eq (window : ℕ) (ist : IntervalStats) (hc : 0 ≤ ist.correct)
    (hs : ist.correct ≤ ist.seen) :
    seedBatch window ist =
      List.replicate (seedK ist (seedLen window ist)).toNat true ++
      List.replicate (seedLen window ist - seedK ist (seedLen window ist)).toNat false := by
  obtain ⟨hk0, hkn⟩ := seedK_bounds window ist hc hs
  have hnw : seedLen window ist ≤ (window : ℤ) := by unfold seedLen; omega
  have hn0 : 0 ≤ seedLen window ist := by unfold seedLen; omega
  unfold seedBatch dequeOfList
  have hzero : (List.replicate (seedK ist (seedLen window ist)).toNat true ++
      List.replicate (seedLen window ist - seedK ist (seedLen window ist)).toNat
        false).length - window = 0 := by
    simp only [List.length_append, List.length_replicate]
    omega
  rw [hzero, List.drop_zero]

theorem seedStep_window (st : AdaptiveState) (p : String × IntervalStats) :
    (seedStep st p).window = st.window := rfl

theorem seed_foldl_window (pairs : List (String × IntervalStats)) :
    ∀ st : AdaptiveState, (pairs.foldl seedStep st).window = st.window := by
  induction pairs with
  | nil => intro st; rfl
  | cons p rest ih =>
    intro st
    rw [List.foldl_cons, ih, seedStep_window]

theorem seed_foldl_get_notmem (pairs : List (String × IntervalStats)) :
    ∀ (st : AdaptiveState) (name : String), name ∉ pairs.map Prod.fst →
      dictGet name (pairs.foldl seedStep st).history = dictGet name st.history := by
  induction pairs with
  | nil => intro st name _; rfl
  | cons p rest ih =>
    intro st name hnm
    simp only [List.map_cons, List.mem_cons, not_or] at hnm
    rw [List.foldl_cons, ih _ name hnm.2]
    exact dictGet_dictInsert_ne p.1 name (seedBatch st.window p.2) st.history hnm.1

theorem seed_foldl_get (pairs : List (String × IntervalStats)) :
    ∀ (st : AdaptiveState) (name : String) (ist : IntervalStats),
      (pairs.map Prod.fst).Nodup → (name, ist) ∈ pairs →
      dictGet name (pairs.foldl seedStep st).history = some (seedBatch st.window ist) := by
  induction pairs with
  | nil => intro st name ist _ hmem; simp at hmem
  | cons p rest ih =>
    intro st name ist hnd hmem
    obtain ⟨k1, i1⟩ := p
    simp only [List.map_cons, List.nodup_cons] at hnd
    rw [List.foldl_cons]
    rcases List.mem_cons.mp hmem with h1 | h1
    · obtain ⟨ha, hb⟩ := Prod.mk.inj h1
      subst ha
      subst hb
      have hnm : name ∉ rest.map Prod.fst := hnd.1
      rw [seed_foldl_get_notmem rest _ name hnm]
      exact dictGet_dictInsert_self name (seedBatch st.window ist) st.history
    · rw [ih (seedStep st (k1, i1)) name ist hnd.2 h1, seedStep_window]

/-- C7 (amended): for an interval present in `Stats` whose counters satisfy the
data-model invariant `0 ≤ correct ≤ seen` (and distinct dict keys, a Python
dict invariant), `seed_from_stats` installs exactly the front-loaded history
`[True] * k + [False] * (n - k)` with `n = min(window, max(1, seen))` and
`k = round(correct / seen * n)` (`k = 0` when `seen = 0`); in particular its
length is `n` and its count of `True` entries is `k`.  The original claim
quantified over every `Stats` value; it fails when `correct > seen`, which the
unconstrained int counters allow — see the counterexample. -/
theorem seed_from_stats_history (st : AdaptiveState) (stats : Stats) (name : String)
    (ist : IntervalStats) (hnd : (stats.by_interval.map Prod.fst).Nodup)
    (hmem : (name, ist) ∈ stats.by_interval) (hc : 0 ≤ ist.correct)
    (hs : ist.correct ≤ ist.seen) :
    dictGet name (st.seed_from_stats stats).history =
      some (List.replicate (seedK ist (seedLen st.window ist)).toNat true ++
        List.replicate (seedLen st.window ist - seedK ist (seedLen st.window ist)).toNat
          false) ∧
    ((dictGet name (st.seed_from_stats stats).history).getD []).length =
      (seedLen st.window ist).toNat ∧
    ((dictGet name (st.seed_from_stats stats).history).getD []).count true =
      (seedK ist (seedLen st.window ist)).toNat := by
  have hg := seed_foldl_get stats.by_interval st name ist hnd hmem
  have hb := seedBatch_eq st.window ist hc hs
  obtain ⟨hk0, hkn⟩ := seedK_bounds st.window ist hc hs
  unfold AdaptiveState.seed_from_stats
  rw [hg, hb]
  refine ⟨rfl, ?_, ?_⟩
  · simp only [Option.getD_some, List.length_append, List.length_replicate]
    omega
  · simp [List.count_append, List.count_replicate]

/-- Witness for C7 at `window = 50`, `seen = 10`, `correct = 4`. -/
theorem seed_from_stats_history_witness :
    dictGet "m2" ((⟨50, [("m2", [])], []⟩ : AdaptiveState).seed_from_stats
        ⟨[("m2", ⟨10, 4⟩)], []⟩).history =
      some (List.replicate (seedK ⟨10, 4⟩ (seedLen 50 ⟨10, 4⟩)).toNat true ++
        List.replicate (seedLen 50 ⟨10, 4⟩ - seedK ⟨10, 4⟩ (seedLen 50 ⟨10, 4⟩)).toNat
          false) ∧
    ((dictGet "m2" ((⟨50, [("m2", [])], []⟩ : AdaptiveState).seed_from_stats
        ⟨[("m2", ⟨10, 4⟩)], []⟩).history).getD []).length = (seedLen 50 ⟨10, 4⟩).toNat ∧
    ((dictGet "m2" ((⟨50, [("m2", [])], []⟩ : AdaptiveState).seed_from_stats
        ⟨[("m2", ⟨10, 4⟩)], []⟩).history).getD []).count true =
      (seedK ⟨10, 4⟩ (seedLen 50 ⟨10, 4⟩)).toNat :=
  seed_from_stats_history ⟨50, [("m2", [])], []⟩ ⟨[("m2", ⟨10, 4⟩)], []⟩ "m2" ⟨10, 4⟩
    (by simp) (by simp) (by norm_num) (by norm_num)

/-- C7 counterexample: the claim as stated quantifies over every `Stats` value,
but with `seen = 1`, `correct = 2` (representable: the counters are plain
ints) the synthesized history is `[True, True]` of length 2, not
`min(window, max(1, seen)) = 1`. -/
theorem seed_from_stats_length_cex :
    ¬ (∀ (st : AdaptiveState) (stats : Stats) (name : String) (ist : IntervalStats),
        (stats.by_interval.map Prod.fst).Nodup → (name, ist) ∈ stats.by_interval →
        ((dictGet name (st.seed_from_stats stats).history).getD []).length =
          (seedLen st.window ist).toNat) := by
  intro h
  have h2 := h ⟨50, [("m2", [])], []⟩ ⟨[("m2", ⟨1, 2⟩)], []⟩ "m2" ⟨1, 2⟩ (by simp) (by simp)
  have hbat : seedBatch 50 ⟨1, 2⟩ = [true, true] := by
    have hlen : seedLen 50 ⟨1, 2⟩ = 1 := by unfold seedLen; norm_num
    have hround : pyRound 2 = 2 := by
      norm_num [pyRound]
    have hk : seedK ⟨1, 2⟩ (seedLen 50 ⟨1, 2⟩) = 2 := by
      rw [hlen]
      unfold seedK
      norm_num [hround]
    rw [seedBatch, hk, hlen]
    decide
  have he : dictGet "m2" ((⟨50, [("m2", [])], []⟩ : AdaptiveState).seed_from_stats
      ⟨[("m2", ⟨1, 2⟩)], []⟩).history = some [true, true] := by
    show dictGet "m2"
      (seedStep ⟨50, [("m2", [])], []⟩ ("m2", ⟨1, 2⟩)).history = some [true, true]
    simp [seedStep, hbat, dictInsert, dictGet]
  rw [he] at h2
  have hlen1 : (seedLen 50 ⟨1, 2⟩).toNat = 1 := by unfold seedLen; norm_num
  rw [hlen1] at h2
  simp at h2

/-! ## `score_answer` characterization lemmas -/

theorem ite_bi_get_self (key : String) (bi : List (String × IntervalStats)) :
    dictGet key (if (dictGet key bi).isNone then
        dictInsert key (⟨0, 0⟩ : IntervalStats) bi else bi) =
      some ((dictGet key bi).getD ⟨0, 0⟩) := by
  cases hk : dictGet key bi with
  | none => simp [hk, dictGet_dictInsert_self]
  | some v => simp [hk]

theorem ite_bi_get_ne (key n : String) (bi : List (String × IntervalStats))
    (h : n ≠ key) :
    dictGet n (if (dictGet key bi).isNone then
        dictInsert key (⟨0, 0⟩ : IntervalStats) bi else bi) = dictGet n bi := by
  cases hk : dictGet key bi with
  | none => simp [hk, dictGet_dictInsert_ne key n _ _ h]
  | some v => simp [hk]

theorem score_answer_record (q : Question) (chosen : String) (stats : Stats)
    (st : AdaptiveState) :
    (score_answer q chosen stats st).1 =
      ⟨q.interval, chosen, decide (chosen = q.answer)⟩ := rfl

theorem score_answer_window (q : Question) (chosen : String) (stats : Stats)
    (st : AdaptiveState) :
    (score_answer q chosen stats st).2.2.window = st.window := rfl

theorem score_answer_bi_self (q : Question) (chosen : String) (stats : Stats)
    (st : AdaptiveState) :
    dictGet q.interval (score_answer q chosen stats st).2.1.by_interval =
      some ⟨((dictGet q.interval stats.by_interval).getD ⟨0, 0⟩).seen + 1,
            ((dictGet q.interval stats.by_interval).getD ⟨0, 0⟩).correct +
              (if chosen = q.answer then 1 else 0)⟩ := by
  simp only [score_answer]
  rw [dictGet_dictInsert_self, ite_bi_get_self]
  simp

theorem score_answer_bi_ne (q : Question) (chosen : String) (stats : Stats)
    (st : AdaptiveState) (n : String) (h : n ≠ q.interval) :
    dictGet n (score_answer q chosen stats st).2.1.by_interval =
      dictGet n stats.by_interval := by
  simp only [score_answer]
  rw [dictGet_dictInsert_ne _ _ _ _ h, ite_bi_get_ne _ _ _ h]

theorem score_answer_conf_correct (q : Question) (chosen : String) (stats : Stats)
    (st : AdaptiveState) (h : chosen = q.answer) :
    (score_answer q chosen stats st).2.1.confusion = stats.confusion := by
  simp only [score_answer]
  rw [if_pos h]

theorem score_answer_conf_self_incorrect (q : Question) (chosen : String)
    (stats : Stats) (st : AdaptiveState) (h : chosen ≠ q.answer) :
    dictGet q.interval (score_answer q chosen stats st).2.1.confusion =
      some (dictInsert chosen
        (((dictGet chosen ((dictGet q.interval stats.confusion).getD [])).getD 0) + 1)
        ((dictGet q.interval stats.confusion).getD [])) := by
  simp only [score_answer]
  rw [if_neg h]
  exact dictGet_dictInsert_self _ _ _

theorem score_answer_conf_ne (q : Question) (chosen : String) (stats : Stats)
    (st : AdaptiveState) (n : String) (h : n ≠ q.interval) :
    dictGet n (score_answer q chosen stats st).2.1.confusion =
      dictGet n stats.confusion := by
  simp only [score_answer]
  by_cases hc : chosen = q.answer
  · rw [if_pos hc]
  · rw [if_neg hc]
    exact dictGet_dictInsert_ne _ _ _ _ h

theorem score_answer_hist_self (q : Question) (chosen : String) (stats : Stats)
    (st : AdaptiveState) :
    dictGet q.interval (score_answer q chosen stats st).2.2.history =
      some (dequePush st.window ((dictGet q.interval st.history).getD [])
        (decide (chosen = q.answer))) := by
  simp only [score_answer, AdaptiveState.update]
  exact dictGet_dictInsert_self _ _ _

theorem score_answer_hist_ne (q : Question) (chosen : String) (stats : Stats)
    (st : AdaptiveState) (n : String) (h : n ≠ q.interval) :
    dictGet n (score_answer q chosen stats st).2.2.history = dictGet n st.history := by
  simp only [score_answer, AdaptiveState.update]
  exact dictGet_dictInsert_ne _ _ _ _ h

theorem score_answer_rm_correct (q : Question) (chosen : String) (stats : Stats)
    (st : AdaptiveState) (h : chosen = q.answer) :
    (score_answer q chosen stats st).2.2.recent_misses = st.recent_misses := by
  simp only [score_answer, AdaptiveState.update]
  simp [h]

theorem score_answer_rm_incorrect (q : Question) (chosen : String) (stats : Stats)
    (st : AdaptiveState) (h : chosen ≠ q.answer) :
    (score_answer q chosen stats st).2.2.recent_misses =
      dequePush 3 st.recent_misses q.interval := by
  simp only [score_answer, AdaptiveState.update]
  simp [h]

/-! ## Claims C6, C8, C10: scoring -/

/-- C6: frame and effect of `score_answer`.  On a correct answer only the
interval's `seen` and `correct` counters grow, the confusion map and
recent-misses are untouched, and `True` is appended to that interval's
history; on an incorrect answer `seen` grows but not `correct`, the nested
confusion counter for `(interval, chosen)` is created (from 0) and
incremented, `False` is appended, and the interval is pushed onto
recent-misses.  Entries for every other interval are unchanged in both the
stats and the adaptive history. -/
theorem score_answer_frame_effects (q : Question) (chosen : String) (stats : Stats)
    (st : AdaptiveState) :
    (score_answer q chosen stats st).2.2.window = st.window ∧
    (score_answer q chosen stats st).1 =
      ⟨q.interval, chosen, decide (chosen = q.answer)⟩ ∧
    (∀ n, n ≠ q.interval →
      dictGet n (score_answer q chosen stats st).2.1.by_interval =
        dictGet n stats.by_interval) ∧
    (∀ n, n ≠ q.interval →
      dictGet n (score_answer q chosen stats st).2.1.confusion =
        dictGet n stats.confusion) ∧
    (∀ n, n ≠ q.interval →
      dictGet n (score_answer q chosen stats st).2.2.history = dictGet n st.history) ∧
    (chosen = q.answer →
      dictGet q.interval (score_answer q chosen stats st).2.1.by_interval =
        some ⟨((dictGet q.interval stats.by_interval).getD ⟨0, 0⟩).seen + 1,
              ((dictGet q.interval stats.by_interval).getD ⟨0, 0⟩).correct + 1⟩ ∧
      (score_answer q chosen stats st).2.1.confusion = stats.confusion ∧
      dictGet q.interval (score_answer q chosen stats st).2.2.history =
        some (dequePush st.window ((dictGet q.interval st.history).getD []) true) ∧
      (score_answer q chosen stats st).2.2.recent_misses = st.recent_misses) ∧
    (chosen ≠ q.answer →
      dictGet q.interval (score_answer q chosen stats st).2.1.by_interval =
        some ⟨((dictGet q.interval stats.by_interval).getD ⟨0, 0⟩).seen + 1,
              ((dictGet q.interval stats.by_interval).getD ⟨0, 0⟩).correct⟩ ∧
      dictGet q.interval (score_answer q chosen stats st).2.1.confusion =
        some (dictInsert chosen
          (((dictGet chosen ((dictGet q.interval stats.confusion).getD [])).getD 0) + 1)
          ((dictGet q.interval stats.confusion).getD [])) ∧
      dictGet q.interval (score_answer q chosen stats st).2.2.history =
        some (dequePush st.window ((dictGet q.interval st.history).getD []) false) ∧
      (score_answer q chosen stats st).2.2.recent_misses =
        dequePush 3 st.recent_misses q.interval) := by
  refine ⟨score_answer_window q chosen stats st, score_answer_record q chosen stats st,
    fun n h => score_answer_bi_ne q chosen stats st n h,
    fun n h => score_answer_conf_ne q chosen stats st n h,
    fun n h => score_answer_hist_ne q chosen stats st n h, ?_, ?_⟩
  · intro h
    refine ⟨?_, score_answer_conf_correct q chosen stats st h, ?_,
      score_answer_rm_correct q chosen stats st h⟩
    · rw [score_answer_bi_self q chosen stats st, if_pos h]
    · rw [score_answer_hist_self q chosen stats st, decide_eq_true h]
  · intro h
    refine ⟨?_, score_answer_conf_self_incorrect q chosen stats st h, ?_,
      score_answer_rm_incorrect q chosen stats st h⟩
    · rw [score_answer_bi_self q chosen stats st, if_neg h]
      simp
    · rw [score_answer_hist_self q chosen stats st]
      rw [decide_eq_false h]

/-- C8: `score_answer` preserves `0 ≤ correct ≤ seen` for every per-interval
entry, for every question, chosen string, and adaptive state.  (In this pure
embedding `score_answer` is also the only operation returning an updated
`Stats`, matching the spec's single-writer statement.) -/
theorem score_answer_preserves_range (q : Question) (chosen : String) (stats : Stats)
    (st : AdaptiveState) (h : statsInRange stats = true) :
    statsInRange (score_answer q chosen stats st).2.1 = true := by
  simp only [statsInRange, List.all_eq_true, decide_eq_true_eq] at h ⊢
  intro p hp
  simp only [score_answer] at hp
  rcases mem_dictInsert hp with h1 | h1
  · rw [ite_bi_get_self] at h1
    cases hget : dictGet q.interval stats.by_interval with
    | none =>
      rw [hget] at h1
      subst h1
      simp only [Option.getD_none]
      constructor
      · split <;> norm_num
      · split <;> norm_num
    | some v =>
      rw [hget] at h1
      subst h1
      have hv := h (q.interval, v) (dictGet_mem hget)
      have hv2 : 0 ≤ v.correct ∧ v.correct ≤ v.seen := hv
      simp only [Option.getD_some]
      constructor
      · show 0 ≤ v.correct + _
        split <;> omega
      · show v.correct + _ ≤ v.seen + 1
        split <;> omega
  · by_cases hn : (dictGet q.interval stats.by_interval).isNone
    · rw [if_pos hn] at h1
      rcases mem_dictInsert h1 with h3 | h3
      · subst h3
        norm_num
      · exact h p h3
    · rw [if_neg hn] at h1
      exact h p h1

/-- Witness for C8 at a concrete question, stats, and state. -/
theorem score_answer_preserves_range_witness :
    statsInRange (score_answer ⟨"m2", ["m2", "P5"], "m2", 60, (60, 61), Mode.ascending⟩
      "P5" ⟨[("m2", ⟨3, 2⟩)], []⟩ ⟨50, [("m2", [true])], []⟩).2.1 = true :=
  score_answer_preserves_range _ "P5" _ _ (by decide)

/-- C10: `score_answer` validates nothing about `chosen`.  For any string
different from the answer — in particular one outside the question's options
and outside the 12-name vocabulary — it increments `seen` (not `correct`),
creates and increments the confusion counter keyed by that arbitrary string,
appends `False` to the interval's history, and returns a `correct = false`
record; the function is total, mirroring the absence of any raising path in
the source. -/
theorem score_answer_no_validation (q : Question) (chosen : String) (stats : Stats)
    (st : AdaptiveState) (h : chosen ≠ q.answer) :
    (score_answer q chosen stats st).1 = ⟨q.interval, chosen, false⟩ ∧
    dictGet q.interval (score_answer q chosen stats st).2.1.by_interval =
      some ⟨((dictGet q.interval stats.by_interval).getD ⟨0, 0⟩).seen + 1,
            ((dictGet q.interval stats.by_interval).getD ⟨0, 0⟩).correct⟩ ∧
    dictGet chosen
        ((dictGet q.interval (score_answer q chosen stats st).2.1.confusion).getD []) =
      some (((dictGet chosen ((dictGet q.interval stats.confusion).getD [])).getD 0) + 1) ∧
    dictGet q.interval (score_answer q chosen stats st).2.2.history =
      some (dequePush st.window ((dictGet q.interval st.history).getD []) false) := by
  refine ⟨?_, ?_, ?_, ?_⟩
  · rw [score_answer_record, decide_eq_false h]
  · rw [score_answer_bi_self q chosen stats st, if_neg h]
    simp
  · rw [score_answer_conf_self_incorrect q chosen stats st h]
    simp only [Option.getD_some]
    exact dictGet_dictInsert_self _ _ _
  · rw [score_answer_hist_self q chosen stats st, decide_eq_false h]

/-- Witness for C10 with a chosen string outside the canonical vocabulary and
the question's options. -/
theorem score_answer_no_validation_witness :
    (score_answer ⟨"m2", ["m2", "P5"], "m2", 60, (60, 61), Mode.ascending⟩
        "notAnInterval" ⟨[("m2", ⟨3, 2⟩)], []⟩ ⟨50, [("m2", [true])], []⟩).1 =
      ⟨"m2", "notAnInterval", false⟩ ∧
    dictGet "m2" (score_answer ⟨"m2", ["m2", "P5"], "m2", 60, (60, 61), Mode.ascending⟩
        "notAnInterval" ⟨[("m2", ⟨3, 2⟩)], []⟩ ⟨50, [("m2", [true])], []⟩).2.1.by_interval =
      some ⟨((dictGet "m2" (⟨[("m2", ⟨3, 2⟩)], []⟩ : Stats).by_interval).getD ⟨0, 0⟩).seen + 1,
            ((dictGet "m2" (⟨[("m2", ⟨3, 2⟩)], []⟩ : Stats).by_interval).getD ⟨0, 0⟩).correct⟩ ∧
    dictGet "notAnInterval"
        ((dictGet "m2" (score_answer ⟨"m2", ["m2", "P5"], "m2", 60, (60, 61), Mode.ascending⟩
          "notAnInterval" ⟨[("m2", ⟨3, 2⟩)], []⟩ ⟨50, [("m2", [true])], []⟩).2.1.confusion).getD []) =
      some (((dictGet "notAnInterval"
        ((dictGet "m2" (⟨[("m2", ⟨3, 2⟩)], []⟩ : Stats).confusion).getD [])).getD 0) + 1) ∧
    dictGet "m2" (score_answer ⟨"m2", ["m2", "P5"], "m2", 60, (60, 61), Mode.ascending⟩
        "notAnInterval" ⟨[("m2", ⟨3, 2⟩)], []⟩ ⟨50, [("m2", [true])], []⟩).2.2.history =
      some (dequePush 50
        ((dictGet "m2" (⟨50, [("m2", [true])], []⟩ : AdaptiveState).history).getD []) false) :=
  score_answer_no_validation _ "notAnInterval" _ _ (by decide)

/-! ## Claims C4, C5: music-theory utilities -/

theorem randint_ok (rint : ℤ → ℤ → ℤ) (lo hi : ℤ) (h : lo ≤ hi) :
    randint rint lo hi = .ok (rint lo hi) := by
  unfold randint
  rw [if_neg (not_lt.mpr h)]

theorem semitones_entry_pos {name : String} {d : ℤ}
    (h : dictGet name SEMITONES = some d) : 1 ≤ d ∧ d ≤ 12 := by
  have hmem := dictGet_mem h
  simp [SEMITONES] at hmem
  rcases hmem with ⟨_, rfl⟩ | ⟨_, rfl⟩ | ⟨_, rfl⟩ | ⟨_, rfl⟩ | ⟨_, rfl⟩ | ⟨_, rfl⟩ |
    ⟨_, rfl⟩ | ⟨_, rfl⟩ | ⟨_, rfl⟩ | ⟨_, rfl⟩ | ⟨_, rfl⟩ | ⟨_, rfl⟩ <;> omega

/-- C5: `interval_to_pair` returns `(root, root − d)` in `descending` mode and
`(root, root + d)` in `ascending`/`harmonic` mode, for every root and every
canonical interval name of semitone distance `d`. -/
theorem interval_to_pair_spec (root : ℤ) (name : String) (mode : Mode) (d : ℤ)
    (hd : dictGet name SEMITONES = some d) :
    interval_to_pair root name mode =
      .ok (root, if mode = Mode.descending then root - d else root + d) := by
  unfold interval_to_pair semitoneDistance
  rw [hd]
  by_cases h : mode = Mode.descending
  · simp [h]
    ring
  · simp [h]

/-- Witness for C5: a major third descending from middle C. -/
theorem interval_to_pair_spec_witness :
    interval_to_pair 60 "M3" Mode.descending =
      .ok (60, if Mode.descending = Mode.descending then 60 - 4 else 60 + 4) :=
  interval_to_pair_spec 60 "M3" Mode.descending 4 (by decide)

/-- C4: whenever the direction-shifted root window is non-empty, every root
`pick_root_in_bounds` can return lies in `[min, max]` with its paired second
note also in `[min, max]`; when the window is empty the fallback still returns
a value in `[min, max]` (though the second note may leave the range). -/
theorem pick_root_in_bounds_spec (rint : ℤ → ℤ → ℤ)
    (hr : ∀ lo hi, lo ≤ hi → lo ≤ rint lo hi ∧ rint lo hi ≤ hi)
    (min_midi max_midi : ℤ) (hmm : min_midi ≤ max_midi) (name : String) (d : ℤ)
    (hd : dictGet name SEMITONES = some d) (mode : Mode) :
    (pick_root_in_bounds rint min_midi max_midi name mode).toOption.isSome = true ∧
    min_midi ≤ (pick_root_in_bounds rint min_midi max_midi name mode).toOption.getD 0 ∧
    (pick_root_in_bounds rint min_midi max_midi name mode).toOption.getD 0 ≤ max_midi ∧
    ((if mode = Mode.descending then min_midi + d else min_midi) ≤
        (if mode = Mode.descending then max_midi else max_midi - d) →
      min_midi ≤ (if mode = Mode.descending
          then (pick_root_in_bounds rint min_midi max_midi name mode).toOption.getD 0 - d
          else (pick_root_in_bounds rint min_midi max_midi name mode).toOption.getD 0 + d) ∧
      (if mode = Mode.descending
          then (pick_root_in_bounds rint min_midi max_midi name mode).toOption.getD 0 - d
          else (pick_root_in_bounds rint min_midi max_midi name mode).toOption.getD 0 + d)
        ≤ max_midi) := by
  obtain ⟨hd1, hd12⟩ := semitones_entry_pos hd
  unfold pick_root_in_bounds semitoneDistance pick_root
  rw [hd]
  by_cases hm : mode = Mode.descending
  · simp only [hm, if_true, eq_self_iff_true, ite_true]
    split_ifs with hw
    · rw [randint_ok rint min_midi max_midi hmm]
      obtain ⟨ha, hb⟩ := hr min_midi max_midi hmm
      simp only [Except.toOption, Option.getD_some, Option.isSome_some]
      exact ⟨trivial, ha, hb, fun hcond => absurd hcond (by omega)⟩
    · rw [randint_ok rint (max (min_midi + d) min_midi) (min max_midi max_midi)
        (not_lt.mp hw)]
      obtain ⟨ha, hb⟩ := hr (max (min_midi + d) min_midi) (min max_midi max_midi) (by omega)
      simp only [Except.toOption, Option.getD_some, Option.isSome_some]
      exact ⟨trivial, by omega, by omega, fun hcond => ⟨by omega, by omega⟩⟩
  · simp only [hm, if_false, ite_false]
    split_ifs with hw
    · rw [randint_ok rint min_midi max_midi hmm]
      obtain ⟨ha, hb⟩ := hr min_midi max_midi hmm
      simp only [Except.toOption, Option.getD_some, Option.isSome_some]
      exact ⟨trivial, ha, hb, fun hcond => absurd hcond (by omega)⟩
    · rw [randint_ok rint (max min_midi min_midi) (min (max_midi - d) max_midi)
        (not_lt.mp hw)]
      obtain ⟨ha, hb⟩ := hr (max min_midi min_midi) (min (max_midi - d) max_midi) (by omega)
      simp only [Except.toOption, Option.getD_some, Option.isSome_some]
      exact ⟨trivial, by omega, by omega, fun hcond => ⟨by omega, by omega⟩⟩

/-- Witness for C4: a perfect fifth ascending over the default range. -/
theorem pick_root_in_bounds_spec_witness :
    ((pick_root_in_bounds (fun lo _ => lo) 48 69 "P5" Mode.ascending).toOption.isSome
      = true) ∧
    48 ≤ (pick_root_in_bounds (fun lo _ => lo) 48 69 "P5" Mode.ascending).toOption.getD 0 ∧
    (pick_root_in_bounds (fun lo _ => lo) 48 69 "P5" Mode.ascending).toOption.getD 0 ≤ 69 ∧
    ((if Mode.ascending = Mode.descending then (48 : ℤ) + 7 else 48) ≤
        (if Mode.ascending = Mode.descending then 69 else 69 - 7) →
      48 ≤ (if Mode.ascending = Mode.descending
          then (pick_root_in_bounds (fun lo _ => lo) 48 69 "P5"
            Mode.ascending).toOption.getD 0 - 7
          else (pick_root_in_bounds (fun lo _ => lo) 48 69 "P5"
            Mode.ascending).toOption.getD 0 + 7) ∧
      (if Mode.ascending = Mode.descending
          then (pick_root_in_bounds (fun lo _ => lo) 48 69 "P5"
            Mode.ascending).toOption.getD 0 - 7
          else (pick_root_in_bounds (fun lo _ => lo) 48 69 "P5"
            Mode.ascending).toOption.getD 0 + 7) ≤ 69) :=
  pick_root_in_bounds_spec (fun lo _ => lo) (fun lo hi h => ⟨le_refl lo, h⟩)
    48 69 (by omega) "P5" 7 (by decide) Mode.ascending

/-! ## Question-generator lemmas -/

theorem getLastD_mem (l : List String) (x : String) (h : l ≠ []) : l.getLastD x ∈ l := by
  rw [List.getLastD_eq_getLast?]
  cases hl : l.getLast? with
  | none =>
    exfalso
    rw [List.getLast?_eq_none_iff] at hl
    exact h hl
  | some a => simpa using List.mem_of_mem_getLast? hl

theorem choose_interval_mem (g : Rng) (c : ℕ) (intervals : List String) (w : List ℚ)
    (hg : g.Valid) (hne : intervals ≠ []) :
    (choose_interval g c intervals w).1 ∈ intervals := by
  unfold choose_interval
  have hlt : g.choice c intervals.length w < intervals.length :=
    hg.2.1 c intervals.length w (List.length_pos.mpr hne)
  simp only [List.getD_eq_getElem _ _ hlt]
  exact List.getElem_mem hlt

theorem pick_root_in_bounds_ok (rint : ℤ → ℤ → ℤ) (mn mx : ℤ) (hmx : mn ≤ mx)
    (name : String) (mode : Mode) (h : (dictGet name SEMITONES).isSome = true) :
    ∃ r, pick_root_in_bounds rint mn mx name mode = .ok r := by
  obtain ⟨d, hd⟩ := Option.isSome_iff_exists.mp h
  unfold pick_root_in_bounds semitoneDistance pick_root
  rw [hd]
  dsimp only
  split_ifs with hm hw1 hw2
  · rw [randint_ok rint mn mx hmx]
    exact ⟨_, rfl⟩
  · rw [randint_ok rint _ _ (not_lt.mp hw1)]
    exact ⟨_, rfl⟩
  · rw [randint_ok rint mn mx hmx]
    exact ⟨_, rfl⟩
  · rw [randint_ok rint _ _ (not_lt.mp hw2)]
    exact ⟨_, rfl⟩

theorem gex_valid : gex.Valid := by
  refine ⟨?_, ?_, ?_, ?_⟩
  · intro c lo hi h
    exact ⟨le_refl lo, h⟩
  · intro c n w h
    exact h
  · intro c l k h
    refine ⟨?_, (List.take_sublist k l).subperm⟩
    show (List.take k l).length = k
    rw [List.length_take]
    omega
  · intro c l
    exact List.Perm.refl l

/-- Full behavioural specification of `distractors` for a canonical pool:
it succeeds, every returned name is a non-correct pool member, distinctness is
preserved from the pool, and the number of distractors is
`min k (max 1 (min (k+2) m))` for a non-empty filtered pool of size `m`
(and 0 for an empty one). -/
theorem distractors_spec (g : Rng) (c : ℕ) (correct : String) (pool : List String)
    (k : ℕ) (hg : g.Valid)
    (hcanon : ∀ n ∈ pool, (dictGet n SEMITONES).isSome = true)
    (hcorr : (dictGet correct SEMITONES).isSome = true) :
    ∃ d c2, distractors g c correct pool k = .ok (d, c2) ∧
      (∀ x ∈ d, x ∈ pool ∧ x ≠ correct) ∧
      (pool.Nodup → d.Nodup) ∧
      d.length = (if (pool.filter (fun n => n ≠ correct)).length = 0 then 0
        else min k (max 1 (min (k + 2) (pool.filter (fun n => n ≠ correct)).length))) := by
  simp only [distractors]
  by_cases hemp : (pool.filter (fun n => n ≠ correct)).isEmpty
  · rw [if_pos hemp]
    rw [List.isEmpty_iff] at hemp
    refine ⟨[], c, rfl, by simp, fun _ => List.nodup_nil, ?_⟩
    rw [hemp]
    simp
  · rw [if_neg hemp]
    rw [List.isEmpty_iff] at hemp
    obtain ⟨t, ht⟩ := Option.isSome_iff_exists.mp hcorr
    rw [ht]
    dsimp only
    set names := pool.filter (fun n => n ≠ correct) with hnames
    have hall : names.all (fun n => (dictGet n SEMITONES).isSome) = true := by
      rw [List.all_eq_true]
      intro n hn
      exact hcanon n (List.mem_of_mem_filter hn)
    rw [if_pos hall]
    set sorted := names.insertionSort
      (fun a b => semitoneKey t a ≤ semitoneKey t b) with hsorted
    have hperm : sorted.Perm names := List.perm_insertionSort _ names
    have hsortne : sorted ≠ [] := by
      intro hcon
      apply hemp
      have h0 : sorted.length = names.length := hperm.length_eq
      rw [hcon] at h0
      exact List.length_eq_zero.mp h0.symm
    set candidates := sorted.take (max 1 (min (k + 2) names.length)) with hcand
    have hcandlen : candidates.length = max 1 (min (k + 2) names.length) := by
      rw [hcand, List.length_take]
      have h1 : 0 < sorted.length := List.length_pos.mpr hsortne
      have h2 : sorted.length = names.length := hperm.length_eq
      omega
    have hcandsub : ∀ x ∈ candidates, x ∈ names := by
      intro x hx
      exact hperm.subset ((List.take_sublist _ _).subset hx)
    have hcandnodup : names.Nodup → candidates.Nodup := by
      intro hnd
      exact (List.take_sublist _ _).nodup (hperm.symm.nodup hnd)
    set far := sorted.getLastD "" with hfar
    have hfarmem : far ∈ names := hperm.subset (getLastD_mem sorted "" hsortne)
    set candidates2 := if 0 < names.length ∧ g.flt c < 1/5 then
        if far ∈ candidates then candidates
        else candidates.dropLast ++ [far]
      else candidates with hcand2
    have hc2len : candidates2.length = candidates.length := by
      rw [hcand2]
      split_ifs with h1 h2
      · rfl
      · rw [List.length_append, List.length_dropLast]
        have : 1 ≤ candidates.length := by
          rw [hcandlen]
          omega
        simp
        omega
      · rfl
    have hc2sub : ∀ x ∈ candidates2, x ∈ names := by
      intro x hx
      rw [hcand2] at hx
      split_ifs at hx with h1 h2
      · exact hcandsub x hx
      · rcases List.mem_append.mp hx with h3 | h3
        · exact hcandsub x ((List.dropLast_sublist candidates).subset h3)
        · rw [List.mem_singleton.mp h3]
          exact hfarmem
      · exact hcandsub x hx
    have hc2nodup : names.Nodup → candidates2.Nodup := by
      intro hnd
      rw [hcand2]
      split_ifs with h1 h2
      · exact hcandnodup hnd
      · rw [List.nodup_append]
        refine ⟨(List.dropLast_sublist candidates).nodup (hcandnodup hnd),
          List.nodup_singleton far, ?_⟩
        rw [List.disjoint_singleton]
        intro hcon
        exact h2 ((List.dropLast_sublist candidates).subset hcon)
      · exact hcandnodup hnd
    obtain ⟨hslen, hssub⟩ := hg.2.2.1 (c + 1) candidates2 (min k candidates2.length)
      (min_le_right _ _)
    refine ⟨g.sample (c + 1) candidates2 (min k candidates2.length), c + 2, rfl, ?_, ?_, ?_⟩
    · intro x hx
      have hxn : x ∈ names := hc2sub x (hssub.subset hx)
      rw [hnames] at hxn
      have := List.mem_filter.mp hxn
      refine ⟨this.1, by simpa using this.2⟩
    · intro hnd
      obtain ⟨l2, hl2p, hl2s⟩ := hssub
      exact hl2p.nodup (hl2s.nodup (hc2nodup ((hnames ▸ hnd.filter _))))
    · rw [hslen, hc2len, hcandlen]
      have hm : names.length ≠ 0 := by
        intro hcon
        exact hemp (List.length_eq_zero.mp hcon)
      rw [if_neg (hnames ▸ hm)]

/-- The anti-repeat loop always succeeds for a canonical interval set, and its
resulting interval is drawn from the enabled set. -/
theorem antiRepeat_spec (g : Rng) (intervals : List String) (w : List ℚ)
    (mn mx : ℤ) (hmx : mn ≤ mx) (mode : Mode) (lq : Option Question) (hg : g.Valid)
    (hne : intervals ≠ [])
    (hcanon : ∀ n ∈ intervals, (dictGet n SEMITONES).isSome = true) :
    ∀ (fuel : ℕ) (name : String) (root : ℤ) (c : ℕ), name ∈ intervals →
      ∃ nm r c2, antiRepeat g intervals w mn mx mode lq fuel name root c =
        .ok (nm, r, c2) ∧ nm ∈ intervals := by
  intro fuel
  induction fuel with
  | zero =>
    intro name root c hname
    exact ⟨name, root, c, rfl, hname⟩
  | succ n ih =>
    intro name root c hname
    cases lq with
    | none => exact ⟨name, root, c, rfl, hname⟩
    | some q =>
      rw [antiRepeat]
      by_cases hc : name = q.interval ∧ root = q.root_midi ∧ mode = q.mode
      · rw [if_pos hc]
        by_cases hf : g.flt c < 7/10
        · rw [if_pos hf]
          obtain ⟨r2, hr2⟩ := pick_root_in_bounds_ok (g.rint (c + 1)) mn mx hmx name mode
            (hcanon name hname)
          rw [hr2]
          exact ih name r2 (c + 2) hname
        · rw [if_neg hf]
          exact ih _ root _ (choose_interval_mem g (c + 1) intervals w hg hne)
      · rw [if_neg hc]
        exact ⟨name, root, c, rfl, hname⟩

/-- Full behavioural specification of `make_question` under the canonical
hypotheses: it succeeds, `answer = interval ∈ intervals`, and the options list
is a shuffle of the interval followed by the distractor list, whose members,
distinctness, and count are those of `distractors`. -/
theorem make_question_spec (E : ℚ → ℚ) (g : Rng) (settings : Settings)
    (state : AdaptiveState) (lq : Option Question) (hE : ∀ x, 0 < E x)
    (hg : g.Valid) (hne : settings.intervals ≠ [])
    (hcanon : ∀ n ∈ settings.intervals, (dictGet n SEMITONES).isSome = true)
    (hrange : rangeOk settings.range = true) :
    ∃ q d, make_question E g settings state lq = .ok q ∧
      q.answer = q.interval ∧ q.interval ∈ settings.intervals ∧
      q.options.Perm (q.interval :: d) ∧
      (∀ x ∈ d, x ∈ settings.intervals ∧ x ≠ q.interval) ∧
      (settings.intervals.Nodup → d.Nodup) ∧
      d.length = (if (settings.intervals.filter
          (fun n => n ≠ q.interval)).length = 0 then 0
        else min 3 (max 1 (min 5 (settings.intervals.filter
          (fun n => n ≠ q.interval)).length))) := by
  obtain ⟨w, hw, hwlen, hwsum, hwpos⟩ :=
    weights_spec E state settings.intervals (1/20) hE hne
  cases hsr : settings_range_to_midi settings.range with
  | error e =>
    unfold rangeOk at hrange
    rw [hsr] at hrange
    simp at hrange
  | ok mm =>
    have hord : mm.1 ≤ mm.2 := by
      unfold rangeOk at hrange
      rw [hsr] at hrange
      simpa using hrange
    unfold make_question
    rw [hw, hsr]
    dsimp only
    have hp0mem : (choose_interval g 0 settings.intervals w).1 ∈ settings.intervals :=
      choose_interval_mem g 0 settings.intervals w hg hne
    obtain ⟨r0, hr0⟩ := pick_root_in_bounds_ok
      (g.rint (choose_interval g 0 settings.intervals w).2) mm.1 mm.2 hord
      (choose_interval g 0 settings.intervals w).1 settings.mode
      (hcanon _ hp0mem)
    rw [hr0]
    dsimp only
    obtain ⟨nm, r, c2, har, hnm⟩ := antiRepeat_spec g settings.intervals w mm.1 mm.2
      hord settings.mode lq hg hne hcanon 25 (choose_interval g 0 settings.intervals w).1 r0
      ((choose_interval g 0 settings.intervals w).2 + 1) hp0mem
    rw [har]
    dsimp only
    obtain ⟨dd, hdd⟩ := Option.isSome_iff_exists.mp (hcanon nm hnm)
    rw [interval_to_pair_spec (nudgeRoot lq nm settings.mode mm.1 mm.2 r) nm
      settings.mode dd hdd]
    dsimp only
    obtain ⟨dl, c3, hdist, hdmem, hdnodup, hdlen⟩ :=
      distractors_spec g c2 nm settings.intervals 3 hg hcanon (hcanon nm hnm)
    rw [hdist]
    dsimp only
    refine ⟨_, dl, rfl, rfl, hnm, ?_, hdmem, hdnodup, hdlen⟩
    exact hg.2.2.2 c3 (nm :: dl)

theorem filter_ne_length {l : List String} {a : String} (hnd : l.Nodup) (ha : a ∈ l) :
    (l.filter (fun n => n ≠ a)).length = l.length - 1 := by
  induction l with
  | nil => simp at ha
  | cons b t ih =>
    rw [List.nodup_cons] at hnd
    rcases List.mem_cons.mp ha with h1 | h1
    · subst h1
      rw [List.filter_cons]
      have ht : List.filter (fun n => n ≠ a) t = t := by
        rw [List.filter_eq_self]
        intro x hx
        simp only [ne_eq, decide_eq_true_eq]
        exact fun he => hnd.1 (he ▸ hx)
      simp [ht]
      intro x hx he
      exact hnd.1 (he ▸ hx)
    · have hba : b ≠ a := fun he => hnd.1 (he ▸ h1)
      have h2 := ih hnd.2 h1
      have h3 : 1 ≤ t.length := List.length_pos.mpr (List.ne_nil_of_mem h1)
      rw [List.filter_cons, if_pos (by simp [hba]), List.length_cons, h2]
      simp only [List.length_cons]
      omega

/-! ## Claims C3, C9: the question generator -/

/-- C3 (amended): for duplicate-free canonical enabled intervals (non-empty,
valid range), every question returned by `make_question` has exactly
`min 4 (number of enabled intervals)` pairwise-distinct options containing the
answer exactly once, and its interval belongs to the enabled list.  The
original "exactly 4" holds whenever at least 4 intervals are enabled; with
fewer there are not enough distractors — see the counterexample.  The range
must be valid and ordered (`rangeOk`): a reversed range makes the program
raise `ValueError` in `random.randint` on the empty fallback window. -/
theorem make_question_options (E : ℚ → ℚ) (g : Rng) (settings : Settings)
    (state : AdaptiveState) (lq : Option Question) (hE : ∀ x, 0 < E x) (hg : g.Valid)
    (hne : settings.intervals ≠ []) (hnd : settings.intervals.Nodup)
    (hcanon : ∀ n ∈ settings.intervals, (dictGet n SEMITONES).isSome = true)
    (hrange : rangeOk settings.range = true) :
    (make_question E g settings state lq).toOption.isSome = true ∧
    ((make_question E g settings state lq).toOption.getD qDefault).options.length =
      min 4 settings.intervals.length ∧
    ((make_question E g settings state lq).toOption.getD qDefault).options.Nodup ∧
    ((make_question E g settings state lq).toOption.getD qDefault).options.count
      ((make_question E g settings state lq).toOption.getD qDefault).answer = 1 ∧
    ((make_question E g settings state lq).toOption.getD qDefault).interval ∈
      settings.intervals ∧
    ((make_question E g settings state lq).toOption.getD qDefault).answer =
      ((make_question E g settings state lq).toOption.getD qDefault).interval := by
  obtain ⟨q, d, hok, hans, hmem, hperm, hdmem, hdnodup, hdlen⟩ :=
    make_question_spec E g settings state lq hE hg hne hcanon hrange
  rw [hok]
  simp only [Except.toOption, Option.getD_some, Option.isSome_some, true_and]
  have hnotin : q.interval ∉ d := fun hin => (hdmem _ hin).2 rfl
  have hflen : (settings.intervals.filter (fun n => n ≠ q.interval)).length =
      settings.intervals.length - 1 := filter_ne_length hnd hmem
  have hn1 : 0 < settings.intervals.length := List.length_pos.mpr hne
  refine ⟨?_, ?_, ?_, hmem, hans⟩
  · rw [hperm.length_eq, List.length_cons, hdlen, hflen]
    by_cases h0 : settings.intervals.length - 1 = 0
    · rw [if_pos h0]
      omega
    · rw [if_neg h0]
      omega
  · apply hperm.symm.nodup
    rw [List.nodup_cons]
    exact ⟨hnotin, hdnodup hnd⟩
  · rw [hperm.count_eq, hans, List.count_cons_self, List.count_eq_zero.mpr hnotin]

/-- Witness for C3 (amended) with all twelve intervals enabled. -/
theorem make_question_options_witness :
    (make_question (fun _ => 1) gex settingsAll
      (AdaptiveState.init settingsAll.intervals 50) none).toOption.isSome = true ∧
    ((make_question (fun _ => 1) gex settingsAll
      (AdaptiveState.init settingsAll.intervals 50) none).toOption.getD
        qDefault).options.length = min 4 settingsAll.intervals.length ∧
    ((make_question (fun _ => 1) gex settingsAll
      (AdaptiveState.init settingsAll.intervals 50) none).toOption.getD
        qDefault).options.Nodup ∧
    ((make_question (fun _ => 1) gex settingsAll
      (AdaptiveState.init settingsAll.intervals 50) none).toOption.getD
        qDefault).options.count
      ((make_question (fun _ => 1) gex settingsAll
        (AdaptiveState.init settingsAll.intervals 50) none).toOption.getD
          qDefault).answer = 1 ∧
    ((make_question (fun _ => 1) gex settingsAll
      (AdaptiveState.init settingsAll.intervals 50) none).toOption.getD
        qDefault).interval ∈ settingsAll.intervals ∧
    ((make_question (fun _ => 1) gex settingsAll
      (AdaptiveState.init settingsAll.intervals 50) none).toOption.getD
        qDefault).answer =
      ((make_question (fun _ => 1) gex settingsAll
        (AdaptiveState.init settingsAll.intervals 50) none).toOption.getD
          qDefault).interval :=
  make_question_options (fun _ => 1) gex settingsAll
    (AdaptiveState.init settingsAll.intervals 50) none (fun _ => one_pos) gex_valid
    (by decide) (by decide) (by decide) (by decide)

/-- C3 counterexample: with a single enabled canonical interval the options
list has exactly one entry, not four — there is no distractor pool.  This
refutes the claim as stated (which asserts four options for every non-empty
canonical enabled list). -/
theorem make_question_four_options_cex :
    ¬ (∀ (E : ℚ → ℚ) (g : Rng) (settings : Settings) (state : AdaptiveState)
        (lq : Option Question),
        (∀ x, 0 < E x) → g.Valid → settings.intervals ≠ [] →
        (∀ n ∈ settings.intervals, (dictGet n SEMITONES).isSome = true) →
        rangeOk settings.range = true →
        ((make_question E g settings state lq).toOption.getD qDefault).options.length
            = 4 ∧
        ((make_question E g settings state lq).toOption.getD qDefault).options.Nodup ∧
        ((make_question E g settings state lq).toOption.getD qDefault).options.count
          ((make_question E g settings state lq).toOption.getD qDefault).answer = 1 ∧
        ((make_question E g settings state lq).toOption.getD qDefault).interval ∈
          settings.intervals) := by
  intro h
  obtain ⟨q, d, hok, hans, hmem, hperm, hdmem, hdnodup, hdlen⟩ :=
    make_question_spec (fun _ => 1) gex settingsC3 (AdaptiveState.init ["m2"] 50) none
      (fun _ => one_pos) gex_valid (by decide) (by decide) (by decide)
  have h4 := (h (fun _ => 1) gex settingsC3 (AdaptiveState.init ["m2"] 50) none
    (fun _ => one_pos) gex_valid (by decide) (by decide) (by decide)).1
  rw [hok] at h4
  simp only [Except.toOption, Option.getD_some] at h4
  have hqm : q.interval = "m2" := by
    have h5 : q.interval ∈ settingsC3.intervals := hmem
    simpa [settingsC3] using h5
  have hfilter : settingsC3.intervals.filter (fun n => n ≠ q.interval) = [] := by
    rw [hqm]
    decide
  rw [hfilter] at hdlen
  norm_num at hdlen
  have hlen1 : q.options.length = 1 := by
    rw [hperm.length_eq, List.length_cons, hdlen]
    rfl
  omega

/-- C9: `make_question` always terminates with a question.  The anti-repeat
loop is the source's literal bounded `for _ in range(25)` (fuel 25 in the
embedding), followed by at most one root nudge; for a canonical interval set
and a valid ordered range every oracle path yields `.ok`.  (With a reversed
range the program still terminates, but by raising `ValueError` from
`random.randint` on the empty fallback window instead of returning a
Question, hence the `rangeOk` hypothesis.) -/
theorem make_question_terminates (E : ℚ → ℚ) (g : Rng) (settings : Settings)
    (state : AdaptiveState) (lq : Option Question) (hE : ∀ x, 0 < E x) (hg : g.Valid)
    (hne : settings.intervals ≠ [])
    (hcanon : ∀ n ∈ settings.intervals, (dictGet n SEMITONES).isSome = true)
    (hrange : rangeOk settings.range = true) :
    (make_question E g settings state lq).toOption.isSome = true := by
  obtain ⟨q, d, hok, _⟩ :=
    make_question_spec E g settings state lq hE hg hne hcanon hrange
  rw [hok]
  rfl

/-- Witness for C9 at the degenerate configuration of the claim: a single
interval, a single-note range (so the only valid root repeats the previous
question exactly), and a previous question with the identical
(interval, root, mode) tuple. -/
theorem make_question_terminates_witness :
    (make_question (fun _ => 1) gex settingsC9 (AdaptiveState.init ["m2"] 50)
      (some ⟨"m2", ["m2"], "m2", 48, (48, 49), Mode.ascending⟩)).toOption.isSome
      = true :=
  make_question_terminates (fun _ => 1) gex settingsC9 (AdaptiveState.init ["m2"] 50)
    (some ⟨"m2", ["m2"], "m2", 48, (48, 49), Mode.ascending⟩) (fun _ => one_pos)
    gex_valid (by decide) (by decide) (by decide)

/-- The embedding does not hide the `randint` error path: with a reversed
settings range such as `("A4", "C3")` (MIDI 69 > 48) the shifted root window
is empty, the fallback calls `random.randint(69, 48)`, and the resulting
`ValueError` propagates out of `make_question` — no question is returned,
exactly as in the program. -/
theorem make_question_reversed_range_raises :
    make_question (fun _ => 1) gex
      ⟨["m2"], Mode.ascending, ("A4", "C3"), "piano", 20, 9/10⟩
      (AdaptiveState.init ["m2"] 50) none =
      .error "ValueError: empty range for randrange()" := by
  have hw : (AdaptiveState.init ["m2"] 50).weights (fun _ => 1) ["m2"] (1/20) =
      .ok [1] := by
    have hsc : weightScores (AdaptiveState.init ["m2"] 50) ["m2"] = [1] := by
      simp [weightScores, AdaptiveState.accuracy, AdaptiveState.init, dictGet, dictInsert]
    have hexps : weightExps (fun _ => (1:ℚ)) [1] = NpVal.arr [1] := by
      simp [weightExps, listMax, npExpWith]
    have hW : weightW (fun _ => (1:ℚ)) [1] 1 = PyW.list [1] := by
      rw [weightW, hexps]
      norm_num [NpVal.npSum, NpVal.divToList]
    rw [AdaptiveState.weights, hsc]
    norm_num [hW, renorm, clampFloor]
  unfold make_question
  rw [hw]
  dsimp only
  rw [show settings_range_to_midi ("A4", "C3") = .ok (69, 48) from rfl]
  dsimp only
  rfl
